import Mathlib

set_option autoImplicit false
set_option maxRecDepth 100000

/-!
Verification of the entry-normalization pipeline in `raw2all.py`.

Python strings are modelled as `List Char`; the Python string operations used
by the program (`split`, `join`, `replace`, `strip`, `startswith`, slicing,
substring membership, `int()` conversion) are embedded as executable Lean
functions with Python semantics.  Functions that recurse on a shrinking
suffix are written with an explicit fuel argument (initialised to the string
length, which every call path strictly consumes) so that all definitions are
structurally recursive and evaluate inside the kernel.

Values held in the `new` dict of `process_entry` are modelled by `PyVal`,
because the source stores either a `str` or a bibtexparser `Field` object
there: line 138 of the source (`new['year'] = fields['year']`) stores the
Field object itself, not its `.value` string.  Python `int()` applied to a
Field object raises `TypeError`, and Python `==` between a Field object and a
`str` is always `False` (Field defines no cross-type equality); both facts
are reflected in the embedding below.
-/

namespace Raw2All

/-- Python strings, as lists of characters. -/
abbrev Str := List Char

/-- Characters of a Lean string literal, used to transcribe Python literals. -/
def chars (s : String) : Str := s.data

/-- Python `s.startswith(pat)`: `pat` is a prefix of `s`. -/
def pfx : Str → Str → Bool
  | [], _ => true
  | _ :: _, [] => false
  | p :: ps, c :: cs => if p = c then pfx ps cs else false

/-- Index of the leftmost occurrence of `pat` in `s`, if any. -/
def firstOcc (pat : Str) : Str → Option Nat
  | [] => if pfx pat [] then some 0 else none
  | c :: t => if pfx pat (c :: t) then some 0 else (firstOcc pat t).map (· + 1)

/-- Python `pat in s` (substring membership). -/
def occurs (pat s : Str) : Bool := (firstOcc pat s).isSome

/-- Fuelled scanner for Python `str.replace`: replaces occurrences of `old`
by `new` left to right, non-overlapping, in one pass. -/
def repAux (old new : Str) : Nat → Str → Str
  | 0, s => s
  | f + 1, s =>
    if pfx old s = true ∧ old ≠ [] then new ++ repAux old new f (s.drop old.length)
    else
      match s with
      | [] => []
      | c :: t => c :: repAux old new f t

/-- Python `s.replace(old, new)` (for nonempty `old`, the only case used). -/
def replaceAll (old new s : Str) : Str := repAux old new s.length s

/-- Fuelled scanner for Python `str.split(sep)` with nonempty `sep`. -/
def splitAux (sep : Str) : Nat → Str → List Str
  | 0, s => [s]
  | f + 1, s =>
    match firstOcc sep s with
    | none => [s]
    | some i => s.take i :: splitAux sep f (s.drop (i + sep.length))

/-- Python `s.split(sep)` for a nonempty separator. -/
def pysplit (sep s : Str) : List Str := if sep = [] then [s] else splitAux sep s.length s

/-- Python `sep.join(parts)`. -/
def joinSep (sep : Str) : List Str → Str
  | [] => []
  | [p] => p
  | p :: q :: rest => p ++ sep ++ joinSep sep (q :: rest)

/-- Python whitespace predicate used by `str.strip()`. -/
def isWS (c : Char) : Bool :=
  c == ' ' || c == '\t' || c == '\n' || c == '\r' || c == '\x0b' || c == '\x0c'

/-- Python `s.strip()`. -/
def pyStrip (s : Str) : Str := ((s.dropWhile isWS).reverse.dropWhile isWS).reverse

/-- Literal left brace character (ASCII 123). -/
def lbrace : Char := Char.ofNat 123

/-- Literal right brace character (ASCII 125). -/
def rbrace : Char := Char.ofNat 125

/-- Decidable equality for `Except`, used to evaluate the embedded fallible
functions on concrete inputs. -/
instance {ε α : Type} [DecidableEq ε] [DecidableEq α] : DecidableEq (Except ε α) := fun x y =>
  match x, y with
  | .error a, .error b =>
    if h : a = b then .isTrue (by rw [h]) else .isFalse (by intro hc; cases hc; exact h rfl)
  | .error _, .ok _ => .isFalse (by intro hc; cases hc)
  | .ok _, .error _ => .isFalse (by intro hc; cases hc)
  | .ok a, .ok b =>
    if h : a = b then .isTrue (by rw [h]) else .isFalse (by intro hc; cases hc; exact h rfl)

/-- Python exceptions that the embedded code can raise. -/
inductive PyErr where
  | typeError
  | keyError
  | valueError
  | assertionError
  | indexError
  | unrecognized (code : Str)
deriving DecidableEq

/-- A value stored in the `new` dict of `process_entry`: a Python `int`, a
Python `str`, or a bibtexparser `Field` object (carrying its value string).
Line 138 of the source stores a whole Field object under `new['year']`. -/
inductive PyVal where
  | int (i : Int)
  | pstr (s : Str)
  | fieldObj (value : Str)
deriving DecidableEq

/-- Digit-string test for Python `int()` (underscore grouping is not used by
any input considered here and is not modelled). -/
def allDigits (s : Str) : Bool := !s.isEmpty && s.all Char.isDigit

/-- Numeric value of a digit string. -/
def natOfDigits (s : Str) : Nat := s.foldl (fun a c => a * 10 + (c.toNat - 48)) 0

/-- Python `int(s)` on a string: optional surrounding whitespace, optional
sign, then one or more digits; anything else raises `ValueError`. -/
def pyStrToInt (s0 : Str) : Option Int :=
  match pyStrip s0 with
  | '-' :: ds => if allDigits ds then some (-(natOfDigits ds : Int)) else none
  | '+' :: ds => if allDigits ds then some ((natOfDigits ds : Int)) else none
  | ds => if allDigits ds then some ((natOfDigits ds : Int)) else none

/-- Python `int(x)` on a `PyVal`: identity on ints, string parsing on strs
(`ValueError` on failure), and `TypeError` on a bibtexparser Field object. -/
def pyIntOf : PyVal → Except PyErr Int
  | .int i => .ok i
  | .pstr s =>
    match pyStrToInt s with
    | some i => .ok i
    | none => .error .valueError
  | .fieldObj _ => .error .typeError

/-- Fuelled digit expansion for Python `str(n)` on a natural number. -/
def natStrAux : Nat → Nat → Str
  | 0, _ => []
  | f + 1, n =>
    if n < 10 then [Char.ofNat (48 + n)]
    else natStrAux f (n / 10) ++ [Char.ofNat (48 + n % 10)]

/-- Python `str(n)` for a natural number. -/
def natStr (n : Nat) : Str := natStrAux (n + 1) n

/-- Python `str(i)` for an integer. -/
def intStr : Int → Str
  | .ofNat n => natStr n
  | .negSucc m => '-' :: natStr (m + 1)

/-- The venue-abbreviation table from the top of `raw2all.py`, in source
order. -/
def mapping : List (Str × Str) := [
  (chars "*SEM", chars "Conference on Lexical and Computational Semantics"),
  (chars "AAAI", chars "Association for the Advancement of Artificial Intelligence"),
  (chars "ACL", chars "Annual Meeting of the Association for Computational Linguistics"),
  (chars "ANLC", chars "Applied Natural Language Processing"),
  (chars "AI", chars "Artificial Intelligence"),
  (chars "AISTATS", chars "Artificial Intelligence and Statistics"),
  (chars "ASRU", chars "IEEE Automatic Speech Recognition and Understanding Workshop"),
  (chars "CAV", chars "Computer Aided Verification"),
  (chars "CHI", chars "Conference on Human Factors in Computing Systems"),
  (chars "CL", chars "Computational Linguistics"),
  (chars "CLCLing", chars "International Conference on Computational Linguistics and Intelligent Text Processing"),
  (chars "COLING", chars "International Conference on Computational Linguistics"),
  (chars "CoNLL", chars "SIGNLL Conference on Computational Natural Language Learning"),
  (chars "CVPR", chars "the IEEE/CVF Conference on Computer Vision and Pattern Recognition"),
  (chars "COLT", chars "Conference on Learning Theory"),
  (chars "EACL", chars "Conference of the European Chapter of the Association for Computational Linguistics"),
  (chars "ECCV", chars "European Conference on Computer Vision"),
  (chars "EMNLP", chars "Conference on Empirical Methods in Natural Language Processing"),
  (chars "FOCS", chars "Foundations of Computer Science"),
  (chars "HLT", chars "Human Language Technology"),
  (chars "ICASSP", chars "International Conference on Acoustics, Speech, and Signal Processing"),
  (chars "ICCV", chars "IEEE International Conference on Computer Vision"),
  (chars "ICIPS", chars "IEEE International Conference on Intelligent Processing Systems"),
  (chars "ICLR", chars "International Conference on Learning Representations"),
  (chars "ICML", chars "International Conference on Machine Learning"),
  (chars "ICRA", chars "International Conference on Robotics and Automation"),
  (chars "ICSE", chars "International Conference on Software Engineering"),
  (chars "ICTAI", chars "IEEE International Conference on Tools with Artificial Intelligence"),
  (chars "IJCAI", chars "International Joint Conference on Artificial Intelligence"),
  (chars "IJCNLP", chars "International Joint Conference on Natural Language Processing"),
  (chars "ILSVRC", chars "ImageNet Large Scale Visual Recognition Challenge"),
  (chars "INLG", chars "International Natural Language Generation Conference"),
  (chars "IROS", chars "International Conference on Intelligent Robots and Systems"),
  (chars "ISER", chars "International Symposium on Experimental Robotics"),
  (chars "IWCS", chars "International Conference on Computational Semantics"),
  (chars "IWSLT", chars "International Conference on Spoken Language Translation"),
  (chars "JAIR", chars "Journal of Artificial Intelligence Research"),
  (chars "JASA", chars "Journal of the American Statistical Association"),
  (chars "JMLR", chars "Journal of Machine Learning Research"),
  (chars "KDD", chars "International Conference on Knowledge Discovery and Data Mining"),
  (chars "LREC", chars "Language Resources and Evaluation Conference"),
  (chars "MLSLP", chars "Symposium on Machine Learning in Speech and Language Processing"),
  (chars "NAACL", chars "Conference of the North American Chapter of the Association for Computational Linguistics"),
  (chars "NAACL25", chars "Annual Conference of the Nations of the Americas Chapter of the Association for Computational Linguistics"),
  (chars "NeurIPS", chars "Conference on Neural Information Processing Systems"),
  (chars "NCB", chars "Nature Cell Biology"),
  (chars "NODALIDA", chars "Nordic Conference on Computational Linguistics"),
  (chars "OSDI", chars "Operating Systems Design and Implementation"),
  (chars "PAMI", chars "IEEE Transactions on Pattern Analysis and Machine Intelligence"),
  (chars "PNAS", chars "Proceedings of the National Academy of Sciences of the United States of America"),
  (chars "RECSYS", chars "ACM Conference on Recommender Systems"),
  (chars "SALT", chars "Semantics and Linguistic Theory"),
  (chars "SIGIR", chars "ACM Special Interest Group on Information Retrieval"),
  (chars "SODA", chars "Symposium on Discrete Algorithms"),
  (chars "SOSP", chars "Symposium on Operating Systems Principles"),
  (chars "STOC", chars "Symposium on Theory of Computing"),
  (chars "TACL", chars "Transactions of the Association for Computational Linguistics"),
  (chars "TFS", chars "IEEE Transaction on Fuzzy Systems"),
  (chars "TNN", chars "IEEE Transaction on Neural Networks"),
  (chars "TOIS", chars "ACM Transactions on Information Systems"),
  (chars "TSP", chars "IEEE Transaction on Signal Processing"),
  (chars "UAI", chars "Uncertainty in Artificial Intelligence"),
  (chars "UIST", chars "User Interface Software and Technology"),
  (chars "WSDM", chars "Web Search and Data Mining"),
  (chars "WMT", chars "Conference on Machine Translation"),
  (chars "WWW", chars "World Wide Web")]

/-- Association-list lookup (Python dict indexing on the table). -/
def assocGet : List (Str × Str) → Str → Option Str
  | [], _ => none
  | (a, b) :: t, k => if a = k then some b else assocGet t k

/-- Python `part in mapping` (dict key membership). -/
def inMapping (k : Str) : Bool := (assocGet mapping k).isSome

/-- Loop of `abbr2full` over the hyphen-split parts, accumulating
`' and ' + mapping[part]`; evaluates `int(year)` on each iteration exactly
as the source guard `int(year) >= 2025 and part == 'NAACL'` does. -/
def buildRet (year : PyVal) : List Str → Str → Except PyErr Str
  | [], acc => .ok acc
  | part :: rest, acc =>
    match pyIntOf year with
    | .error e => .error e
    | .ok y =>
      let part2 := if 2025 ≤ y ∧ part = chars "NAACL" then chars "NAACL25" else part
      match assocGet mapping part2 with
      | none => .error .keyError
      | some full => buildRet year rest (acc ++ chars " and " ++ full)

/-- Embedding of `abbr2full` (source lines 82 to 97): strip braces, split on
hyphens, and either expand all known parts, return the cleaned input when the
first part is unknown, or raise `Unrecognized abbreviation`. -/
def abbr2full (abbr0 : Str) (year : PyVal) : Except PyErr Str :=
  let abbr := replaceAll [rbrace] [] (replaceAll [lbrace] [] abbr0)
  let parts := pysplit (chars "-") abbr
  if parts.all (fun p => inMapping p) then
    match buildRet year parts [] with
    | .error e => .error e
    | .ok ret =>
      .ok (pyStrip (replaceAll (chars "  ") (chars " ")
        (ret.drop 5 ++ chars " (" ++ abbr ++ chars ")")))
  else
    match parts with
    | [] => .error .indexError
    | p0 :: _ =>
      if inMapping p0 then .error (.unrecognized abbr)
      else .ok (pyStrip (replaceAll (chars "  ") (chars " ") abbr))

example : abbr2full (chars "ACL") (.int 2020) =
    .ok (chars "Annual Meeting of the Association for Computational Linguistics (ACL)") := by
  decide

example : abbr2full (chars "EMNLP-IJCNLP") (.int 2019) =
    .ok (chars "Conference on Empirical Methods in Natural Language Processing and International Joint Conference on Natural Language Processing (EMNLP-IJCNLP)") := by
  decide

example : abbr2full (chars "X  Y") (.int 2000) = .ok (chars "X Y") := by decide

example : abbr2full (chars "ACL-XYZQ") (.int 2000) = .error (.unrecognized (chars "ACL-XYZQ")) := by
  decide

example : abbr2full (chars "NAACL") (.int 2025) =
    .ok (chars "Annual Conference of the Nations of the Americas Chapter of the Association for Computational Linguistics (NAACL)") := by
  decide

example : abbr2full (chars "ACL") (.fieldObj (chars "2020")) = .error .typeError := by decide

/-- Character class `[\w. ]` of the name-prefix pattern (`\w` is modelled by
ASCII word characters; all inputs considered here are ASCII). -/
def isG (c : Char) : Bool := c.isAlphanum || c == '_' || c == '.' || c == ' '

/-- The four groups of one match of the name-prefix pattern. -/
structure FMatch where
  g1 : Str
  g2 : Str
  g3 : Str
  g4 : Str
deriving DecidableEq

/-- Matched text of a match of the name-prefix pattern
(`match.string[match.start():match.end()]` in the source). -/
def mtext (m : FMatch) : Str :=
  chars "family=" ++ m.g1 ++ chars ", given=" ++ m.g2 ++
    chars ", prefix=" ++ m.g3 ++ chars ", useprefix=" ++ m.g4

/-- Candidate splits of a greedy `[\w. ]+` group: the maximal run of class
characters first, then successively shorter nonempty prefixes, which is the
regex backtracking order. -/
def gCands (s : Str) : List (Str × Str) :=
  let r := s.takeWhile isG
  (List.range r.length).map (fun j => (s.take (r.length - j), s.drop (r.length - j)))

/-- Consume a literal piece of the pattern. -/
def stripLit (lit s : Str) : Option Str :=
  if pfx lit s then some (s.drop lit.length) else none

/-- Anchored match of the raw pattern
`family=([\w. ]+), given=([\w. ]+), prefix=([\w. ]+), useprefix=(true|false)`
at the start of `s`, with greedy backtracking; returns the groups and the
suffix after the match. -/
def matchAt (s : Str) : Option (FMatch × Str) :=
  match stripLit (chars "family=") s with
  | none => none
  | some s1 =>
    (gCands s1).findSome? fun c1 =>
      match stripLit (chars ", given=") c1.2 with
      | none => none
      | some s2 =>
        (gCands s2).findSome? fun c2 =>
          match stripLit (chars ", prefix=") c2.2 with
          | none => none
          | some s3 =>
            (gCands s3).findSome? fun c3 =>
              match stripLit (chars ", useprefix=") c3.2 with
              | none => none
              | some s4 =>
                match stripLit (chars "true") s4 with
                | some s5 => some (⟨c1.1, c2.1, c3.1, chars "true"⟩, s5)
                | none =>
                  match stripLit (chars "false") s4 with
                  | some s5 => some (⟨c1.1, c2.1, c3.1, chars "false"⟩, s5)
                  | none => none

/-- Fuelled scanner for `re.finditer` with the name-prefix pattern:
leftmost, non-overlapping matches. -/
def fiAux : Nat → Str → List FMatch
  | 0, _ => []
  | f + 1, s =>
    match matchAt s with
    | some (m, rest) => m :: fiAux f rest
    | none =>
      match s with
      | [] => []
      | _ :: t => fiAux f t

/-- All matches of the name-prefix pattern in `s`, left to right. -/
def finditer (s : Str) : List FMatch := fiAux s.length s

/-- Embedding of `fix_name` (source lines 100 to 109): for every match of
the name-prefix pattern found in the original string, assert that the
matched text still occurs in the current string, then replace every
occurrence of that text by `prefix family, given`.  A failed assertion
raises `AssertionError`. -/
def fix_name (authors : Str) : Except PyErr Str :=
  (finditer authors).foldlM
    (fun cur m =>
      let name := mtext m
      let newName := m.g3 ++ [' '] ++ m.g1 ++ chars ", " ++ m.g2
      if occurs name cur then .ok (replaceAll name newName cur)
      else .error .assertionError)
    authors

example : fix_name (chars "Smith, John") = .ok (chars "Smith, John") := by decide

example : fix_name (chars "family=Berg, given=Anna, prefix=van, useprefix=true") =
    .ok (chars "van Berg, Anna") := by decide

example : fix_name
    (chars "family=Berg, given=Anna, prefix=van, useprefix=true and family=Berg, given=Anna, prefix=van, useprefix=true") =
    .error .assertionError := by decide

example : fix_name
    (chars "family=A, given=B, prefix=C, useprefix=family=Berg, given=Anna, prefix=true, useprefix=true") =
    .ok (chars "family=A, given=B, prefix=C, useprefix=true Berg, Anna") := by decide

example : fix_name (chars "family=A, given=B, prefix=C, useprefix=true Berg, Anna") =
    .ok (chars "C A, B Berg, Anna") := by decide

/-- Embedding of `shorten_name_list` (source lines 112 to 121). -/
def shorten_name_list (authors : Str) : Str :=
  if authors.length < 1024 then authors
  else
    let parts := (pysplit (chars " and ") authors).map pyStrip
    let nRemove : Int := (parts.length : Int) - 10
    joinSep (chars " and ") (parts.take 10 ++ [intStr nRemove ++ chars " additional authors"])

example : intStr (-9) = chars "-9" := by decide

example : intStr 125 = chars "125" := by decide

example : shorten_name_list (chars "Smith, John and Jones, Mary") =
    chars "Smith, John and Jones, Mary" := by decide

/-- A bibliographic record: entry type, citation key, and the field list in
source order (the bibtexparser `Entry`). -/
structure PEntry where
  etype : Str
  key : Str
  fields : List (Str × Str)
deriving DecidableEq

/-- Value of field `k` in `entry.fields_dict`: the Python dict comprehension
`{f.key: f for f in fields}` keeps the last value of a duplicated key. -/
def getVal : List (Str × Str) → Str → Option Str
  | [], _ => none
  | (a, b) :: t, k =>
    match getVal t k with
    | some v => some v
    | none => if a = k then some b else none

/-- Fuelled dedup of field keys, first-occurrence order (`list(fields)`). -/
def dkAux : Nat → List (Str × Str) → List Str
  | 0, _ => []
  | _ + 1, [] => []
  | f + 1, (a, _) :: t => a :: dkAux f (t.filter (fun p => !(p.1 == a)))

/-- Keys of `fields_dict` in iteration order. -/
def dictKeys (fs : List (Str × Str)) : List Str := dkAux fs.length fs

/-- Insert-or-update into the ordered `new` dict: an existing key keeps its
position, a fresh key is appended (Python dict assignment). -/
def dput : List (Str × PyVal) → Str → PyVal → List (Str × PyVal)
  | [], k, v => [(k, v)]
  | (a, b) :: t, k, v => if a = k then (a, v) :: t else (a, b) :: dput t k v

/-- Python `==` between the Field object `fields['author']` and the string
literal of two quotes on source line 129: a bibtexparser Field object never
equals a `str`, so this test is constantly false and the empty-author filter
never fires. -/
def fieldEqEmptyStr : Bool := false

/-- Python `==` between `fields.get('eprinttype', '')` and `'arxiv'` on
source line 147: when the field is present the left side is a Field object,
which never equals a `str`; when it is absent the left side is the empty
string, which differs from `'arxiv'`.  The guard is constantly false, so the
arXiv eprint fallback branch of `process_entry` is dead code. -/
def eprintTypeEqArxiv (fs : List (Str × Str)) : Bool :=
  match getVal fs (chars "eprinttype") with
  | some _ => false
  | none => chars "" == chars "arxiv"

/-- Value written into the output `Field(key, value)` for a `new` item.  By
the time the output Entry is built every stored value is a `str` (the Field
object stored under `year` on line 138 is always overwritten by the final
copy loop, because that branch runs exactly when `year` is a raw field). -/
def outVal : PyVal → Str
  | .pstr s => s
  | .fieldObj v => v
  | .int i => intStr i

/-- The `common_keeps` list of `process_entry`. -/
def commonKeeps : List Str := [chars "year", chars "title"]

/-- Embedding of `process_entry` (source lines 125 to 176). -/
def process_entry (e : PEntry) : Except PyErr (Option PEntry) :=
  let fs := e.fields
  match getVal fs (chars "author") with
  | none => .ok none
  | some authorVal =>
    if fieldEqEmptyStr then .ok none
    else
      let nobib : Bool :=
        match getVal fs (chars "keywords") with
        | some kw => occurs (chars "nobib") kw
        | none => false
      if nobib then .ok none
      else
        let yearStep : Except PyErr PyVal :=
          if (getVal fs (chars "date")).isSome ∧ (getVal fs (chars "year")).isNone then
            match getVal fs (chars "date") with
            | some d => .ok (.pstr (d.take 4))
            | none => .error .keyError
          else
            match getVal fs (chars "year") with
            | some v => .ok (.fieldObj v)
            | none => .error .keyError
        match yearStep with
        | .error er => .error er
        | .ok yv =>
          let urlOpt : Option Str :=
            match getVal fs (chars "doi") with
            | some doi => some (chars "https://doi.org/" ++ doi)
            | none =>
              match getVal fs (chars "url") with
              | some u =>
                let u2 := replaceAll (chars "http://") (chars "https://") u
                if pfx (chars "http") u2 then some u2 else none
              | none =>
                if eprintTypeEqArxiv fs then none else none
          match fix_name authorVal with
          | .error er => .error er
          | .ok fixedAuthors =>
            let authorOut := shorten_name_list fixedAuthors
            let d0 := dput [] (chars "year") yv
            let d1 :=
              match urlOpt with
              | some u => dput d0 (chars "url") (.pstr u)
              | none => d0
            let d2 := dput d1 (chars "author") (.pstr authorOut)
            let typed : Except PyErr (Str × List Str × List (Str × PyVal)) :=
              if e.etype = chars "article" then
                match getVal fs (chars "journaltitle") with
                | none => .error .keyError
                | some jt =>
                  match abbr2full jt yv with
                  | .error er => .error er
                  | .ok journal =>
                    let d3 := dput d2 (chars "journal") (.pstr journal)
                    let d4 :=
                      match getVal fs (chars "number") with
                      | some num => dput d3 (chars "issue") (.pstr num)
                      | none => d3
                    .ok (e.etype,
                      [chars "volume", chars "issue", chars "publisher", chars "pages"], d4)
              else if e.etype = chars "inproceedings" then
                match getVal fs (chars "booktitle") with
                | none => .error .keyError
                | some bt =>
                  match abbr2full bt yv with
                  | .error er => .error er
                  | .ok bkt =>
                    .ok (e.etype, [], dput d2 (chars "booktitle") (.pstr (pyStrip bkt)))
              else if e.etype = chars "incollection" then
                .ok (e.etype, [chars "booktitle", chars "pages", chars "publisher"], d2)
              else if e.etype = chars "thesis" then
                .ok (e.etype, [chars "institution", chars "type"], d2)
              else
                .ok (chars "misc", [], d2)
            match typed with
            | .error er => .error er
            | .ok (et, toKeep, d) =>
              let final := (dictKeys fs).foldl
                (fun acc k =>
                  if k ∈ commonKeeps ++ toKeep then
                    match getVal fs k with
                    | some v => dput acc k (.pstr v)
                    | none => acc
                  else acc) d
              .ok (some ⟨et, e.key, final.map (fun p => (p.1, outVal p.2))⟩)

/-- Embedding of the per-record loop of `raw2all` (source lines 199 to 212):
each record runs inside try/except; an exception appends the key to the
errored list and the loop continues, an ok nonempty result is appended to
the output.  File reading, writing and printing carry no per-record logic
and are outside the embedding. -/
def raw2allProcess (entries : List PEntry) : List PEntry × List Str :=
  entries.foldl
    (fun acc e =>
      match process_entry e with
      | .ok (some p) => (acc.1 ++ [p], acc.2)
      | .ok none => acc
      | .error _ => (acc.1, acc.2 ++ [e.key]))
    ([], [])

/-- The input record of the end-to-end example of the spec (claim C1). -/
def c1rec : PEntry :=
  ⟨chars "inproceedings", chars "smith2020",
   [(chars "author", chars "Smith, John"), (chars "year", chars "2020"),
    (chars "booktitle", chars "ACL"), (chars "title", chars "A Paper"),
    (chars "doi", chars "10.1/x")]⟩

example : process_entry c1rec = .error .typeError := by decide

example : process_entry
    ⟨chars "misc", chars "k",
     [(chars "author", chars ""), (chars "year", chars "2020")]⟩ =
    .ok (some ⟨chars "misc", chars "k",
      [(chars "year", chars "2020"), (chars "author", chars "")]⟩) := by decide

example : process_entry
    ⟨chars "misc", chars "k",
     [(chars "author", chars "A B"), (chars "date", chars "2021-01-01"),
      (chars "eprinttype", chars "arxiv"), (chars "eprint", chars "1234.5678")]⟩ =
    .ok (some ⟨chars "misc", chars "k",
      [(chars "year", chars "2021"), (chars "author", chars "A B")]⟩) := by decide

example : process_entry
    ⟨chars "misc", chars "k",
     [(chars "author", chars "A B"), (chars "date", chars "2021-01-01"),
      (chars "url", chars "http://example.com/paper")]⟩ =
    .ok (some ⟨chars "misc", chars "k",
      [(chars "year", chars "2021"), (chars "url", chars "https://example.com/paper"),
       (chars "author", chars "A B")]⟩) := by decide

/-! ### Lemmas about the embedded string operations -/

theorem pfx_iff (p : Str) : ∀ s : Str, pfx p s = true ↔ ∃ r, s = p ++ r := by
  induction p with
  | nil => intro s; simp [pfx]
  | cons c ps ih =>
    intro s
    cases s with
    | nil => simp [pfx]
    | cons x xs =>
      by_cases hcx : c = x
      · subst hcx
        have hred : pfx (c :: ps) (c :: xs) = pfx ps xs := by simp [pfx]
        rw [hred, ih xs]
        constructor
        · rintro ⟨r, rfl⟩
          exact ⟨r, rfl⟩
        · rintro ⟨r, hr⟩
          injection hr with h1 h2
          exact ⟨r, h2⟩
      · simp only [pfx, if_neg hcx]
        constructor
        · intro h; cases h
        · rintro ⟨r, hr⟩
          injection hr with h1 h2
          exact absurd h1.symm hcx

theorem pfx_append (p r : Str) : pfx p (p ++ r) = true := (pfx_iff p _).2 ⟨r, rfl⟩

theorem pfx_length {p s : Str} (h : pfx p s = true) : p.length ≤ s.length := by
  obtain ⟨r, rfl⟩ := (pfx_iff p s).1 h
  simp

theorem pfx_false_append {p s b : Str} (h1 : pfx p s = false) (h2 : pfx p (s ++ b) = true) :
    s.length < p.length := by
  by_contra hle
  push_neg at hle
  obtain ⟨r, hr⟩ := (pfx_iff p _).1 h2
  have hps : s.take p.length = p := by
    have ht1 : (s ++ b).take p.length = s.take p.length := List.take_append_of_le_length hle
    have ht2 : (s ++ b).take p.length = p := by rw [hr, List.take_left]
    rw [← ht1, ht2]
  have : pfx p s = true := by
    rw [pfx_iff]
    refine ⟨s.drop p.length, ?_⟩
    conv_lhs => rw [← List.take_append_drop p.length s]
    rw [hps]
  simp [this] at h1

theorem firstOcc_nil_of_ne {pat : Str} (h : pat ≠ []) : firstOcc pat [] = none := by
  cases pat with
  | nil => exact absurd rfl h
  | cons c t => simp [firstOcc, pfx]

theorem firstOcc_bound {pat s : Str} : ∀ {i : Nat}, firstOcc pat s = some i →
    i + pat.length ≤ s.length := by
  induction s with
  | nil =>
    intro i h
    simp only [firstOcc] at h
    split at h
    · rename_i hp
      cases h
      have := pfx_length hp
      simpa using this
    · cases h
  | cons c t ih =>
    intro i h
    simp only [firstOcc] at h
    split at h
    · rename_i hp
      cases h
      simpa using pfx_length hp
    · rename_i hp
      rcases Option.map_eq_some'.1 h with ⟨j, hj, rfl⟩
      have := ih hj
      simp only [List.length_cons]
      omega

theorem firstOcc_cons_pfx {pat : Str} {c : Char} {t : Str} (h : pfx pat (c :: t) = true) :
    firstOcc pat (c :: t) = some 0 := by
  simp [firstOcc, h]

theorem firstOcc_cons_neg {pat : Str} {c : Char} {t : Str} (h : pfx pat (c :: t) = false) :
    firstOcc pat (c :: t) = (firstOcc pat t).map (· + 1) := by
  simp [firstOcc, h]

theorem firstOcc_none_pfx {pat s : Str} (h : firstOcc pat s = none) : pfx pat s = false := by
  cases s with
  | nil =>
    simp only [firstOcc] at h
    split at h
    · cases h
    · rename_i hp; simpa using hp
  | cons c t =>
    simp only [firstOcc] at h
    split at h
    · cases h
    · rename_i hp; simpa using hp

theorem firstOcc_none_tail {pat : Str} {c : Char} {t : Str} (h : firstOcc pat (c :: t) = none) :
    firstOcc pat t = none := by
  simp only [firstOcc] at h
  split at h
  · cases h
  · simpa using h

theorem repAux_no_occ (old new : Str) : ∀ (f : Nat) (s : Str), firstOcc old s = none →
    repAux old new f s = s := by
  intro f
  induction f with
  | zero => intro s _; rfl
  | succ f ih =>
    intro s h
    have hp := firstOcc_none_pfx h
    cases s with
    | nil => simp [repAux, hp]
    | cons c t =>
      simp only [repAux, hp, Bool.false_eq_true, false_and, if_false]
      rw [ih t (firstOcc_none_tail h)]

theorem replaceAll_no_occ {old s : Str} (new : Str) (h : firstOcc old s = none) :
    replaceAll old new s = s := repAux_no_occ old new s.length s h

theorem splitAux_congr {sep : Str} (hsep : sep ≠ []) :
    ∀ (f g : Nat) (s : Str), s.length ≤ f → s.length ≤ g →
      splitAux sep f s = splitAux sep g s := by
  intro f
  induction f with
  | zero =>
    intro g s hf _
    have : s = [] := List.length_eq_zero.1 (Nat.le_zero.1 hf)
    subst this
    cases g with
    | zero => rfl
    | succ g => simp [splitAux, firstOcc_nil_of_ne hsep]
  | succ f ih =>
    intro g s hf hg
    cases g with
    | zero =>
      have : s = [] := List.length_eq_zero.1 (Nat.le_zero.1 hg)
      subst this
      simp [splitAux, firstOcc_nil_of_ne hsep]
    | succ g =>
      simp only [splitAux]
      cases hocc : firstOcc sep s with
      | none => rfl
      | some i =>
        dsimp only
        have hbnd := firstOcc_bound hocc
        have hsl : 0 < sep.length := List.length_pos.2 hsep
        congr 1
        exact ih g _ (by simp only [List.length_drop]; omega)
          (by simp only [List.length_drop]; omega)

theorem pysplit_eq_none {sep s : Str} (h : firstOcc sep s = none) : pysplit sep s = [s] := by
  have hsep : sep ≠ [] := by
    rintro rfl
    cases s <;> simp [firstOcc, pfx] at h
  simp only [pysplit, if_neg hsep]
  cases hl : s.length with
  | zero => rfl
  | succ n => simp [splitAux, h]

theorem pysplit_eq_some {sep s : Str} {i : Nat} (hsep : sep ≠ []) (h : firstOcc sep s = some i) :
    pysplit sep s = s.take i :: pysplit sep (s.drop (i + sep.length)) := by
  have hbnd := firstOcc_bound h
  have hseplen : 0 < sep.length := List.length_pos.2 hsep
  have hslen : 0 < s.length := by omega
  simp only [pysplit, if_neg hsep]
  obtain ⟨m, hm⟩ : ∃ m, s.length = m + 1 := ⟨s.length - 1, by omega⟩
  rw [hm]
  simp only [splitAux, h]
  congr 1
  exact splitAux_congr hsep m _ _ (by simp only [List.length_drop]; omega) (Nat.le_refl _)

theorem pysplit_ne_nil (sep s : Str) : pysplit sep s ≠ [] := by
  simp only [pysplit]
  split
  · simp
  · cases s.length with
    | zero => simp [splitAux]
    | succ n =>
      simp only [splitAux]
      cases firstOcc sep s <;> simp

theorem firstOcc_extend {pat a : Str} (b : Str) :
    ∀ {i : Nat}, firstOcc pat a = some i → i + pat.length ≤ a.length →
      firstOcc pat (a ++ b) = some i := by
  induction a with
  | nil =>
    intro i h hbnd
    simp only [firstOcc] at h
    split at h
    · rename_i hp
      cases h
      obtain ⟨r, hr⟩ := (pfx_iff pat []).1 hp
      have : pat = [] := by
        cases pat with
        | nil => rfl
        | cons c t => simp at hr
      subst this
      cases b with
        | nil => simp [firstOcc, pfx]
        | cons x xs => simp [firstOcc, pfx]
    · cases h
  | cons c t ih =>
    intro i h hbnd
    simp only [firstOcc] at h
    split at h
    · rename_i hp
      cases h
      obtain ⟨r, hr⟩ := (pfx_iff pat _).1 hp
      have hp2 : pfx pat (c :: (t ++ b)) = true := by
        rw [pfx_iff]
        exact ⟨r ++ b, by rw [show c :: (t ++ b) = (c :: t) ++ b from rfl, hr]; simp⟩
      show firstOcc pat (c :: (t ++ b)) = some 0
      rw [firstOcc_cons_pfx hp2]
    · rename_i hp
      have hpf : pfx pat (c :: t) = false := by simpa using hp
      rcases Option.map_eq_some'.1 h with ⟨j, hj, rfl⟩
      have hbnd' : j + pat.length ≤ t.length := by
        simp only [List.length_cons] at hbnd
        omega
      have hp2 : pfx pat (c :: (t ++ b)) = false := by
        by_contra hcon
        have hcon' : pfx pat ((c :: t) ++ b) = true := eq_true_of_ne_false hcon
        have hlt : (c :: t).length < pat.length := pfx_false_append hpf hcon'
        simp only [List.length_cons] at hlt
        omega
      show firstOcc pat (c :: (t ++ b)) = some (j + 1)
      rw [firstOcc_cons_neg hp2, ih hj hbnd']
      rfl

theorem pysplit_joinSep {sep : Str} (hsep : sep ≠ []) :
    ∀ ps : List Str, ps ≠ [] →
      (∀ p ∈ ps.dropLast, firstOcc sep (p ++ sep) = some p.length) →
      (∀ p ∈ ps.getLast?, firstOcc sep p = none) →
      pysplit sep (joinSep sep ps) = ps := by
  intro ps
  induction ps with
  | nil => intro h; exact absurd rfl h
  | cons p rest ih =>
    intro _ hdrop hlast
    cases rest with
    | nil =>
      have hnone : firstOcc sep p = none := hlast p (by simp)
      simpa [joinSep] using pysplit_eq_none hnone
    | cons q rest2 =>
      have hpfirst : firstOcc sep (p ++ sep) = some p.length := by
        apply hdrop
        simp [List.dropLast]
      have hext : firstOcc sep ((p ++ sep) ++ joinSep sep (q :: rest2)) = some p.length :=
        firstOcc_extend _ hpfirst (by simp)
      have hjoin : joinSep sep (p :: q :: rest2) = (p ++ sep) ++ joinSep sep (q :: rest2) := by
        simp [joinSep]
      rw [hjoin, pysplit_eq_some hsep hext]
      have htake : ((p ++ sep) ++ joinSep sep (q :: rest2)).take p.length = p := by
        rw [List.append_assoc, List.take_append_of_le_length (by simp)]
        simp [List.take_left]
      have hdropj : ((p ++ sep) ++ joinSep sep (q :: rest2)).drop (p.length + sep.length) =
          joinSep sep (q :: rest2) := by
        have : p.length + sep.length = (p ++ sep).length := by simp
        rw [this, List.drop_left]
      rw [htake, hdropj, ih (by simp) ?_ ?_]
      · intro x hx
        apply hdrop
        simp only [List.dropLast] at hx ⊢
        exact List.mem_cons_of_mem _ hx
      · intro x hx
        apply hlast
        simpa [List.getLast?] using hx

theorem firstOcc_append_head {hc : Char} {pt a : Str} (b : Str)
    (ha : ∀ c ∈ a, c ≠ hc) :
    firstOcc (hc :: pt) (a ++ b) = (firstOcc (hc :: pt) b).map (· + a.length) := by
  induction a with
  | nil =>
    simp only [List.nil_append, List.length_nil]
    cases firstOcc (hc :: pt) b <;> simp
  | cons x a' ih =>
    have hx : x ≠ hc := ha x (by simp)
    have hpf : pfx (hc :: pt) (x :: (a' ++ b)) = false := by
      simp only [pfx]
      rw [if_neg]
      intro heq
      exact hx heq.symm
    show firstOcc (hc :: pt) (x :: (a' ++ b)) = _
    rw [firstOcc_cons_neg hpf, ih (fun c hcm => ha c (by simp [hcm]))]
    cases firstOcc (hc :: pt) b with
    | none => rfl
    | some v => simp [Function.comp, Nat.add_assoc]

theorem firstOcc_none_of_no_head {hc : Char} {pt s : Str}
    (h : ∀ c ∈ s, c ≠ hc) : firstOcc (hc :: pt) s = none := by
  have hb := @firstOcc_append_head hc pt s [] h
  rw [List.append_nil] at hb
  rw [hb, firstOcc_nil_of_ne (by simp)]
  rfl

theorem firstOcc_pair_none_iff (c1 c2 : Char) :
    ∀ s : Str, firstOcc [c1, c2] s = none ↔
      List.Chain' (fun x y => ¬(c1 = x ∧ c2 = y)) s := by
  intro s
  induction s with
  | nil =>
    simp [firstOcc_nil_of_ne (show ([c1, c2] : Str) ≠ [] by simp)]
  | cons x t ih =>
    have hcons : firstOcc [c1, c2] (x :: t) = none ↔
        pfx [c1, c2] (x :: t) = false ∧ firstOcc [c1, c2] t = none := by
      constructor
      · intro h
        exact ⟨firstOcc_none_pfx h, firstOcc_none_tail h⟩
      · rintro ⟨h1, h2⟩
        rw [firstOcc_cons_neg h1, h2]
        rfl
    rw [hcons]
    cases t with
    | nil =>
      have hp1 : pfx [c1, c2] [x] = false := by
        by_cases h : c1 = x <;> simp [pfx, h]
      simp [hp1, firstOcc_nil_of_ne (show ([c1, c2] : Str) ≠ [] by simp)]
    | cons y t2 =>
      have hpf : (pfx [c1, c2] (x :: y :: t2) = false) ↔ ¬(c1 = x ∧ c2 = y) := by
        by_cases h1 : c1 = x
        · by_cases h2 : c2 = y
          · simp [pfx, h1, h2]
          · simp [pfx, h1, h2]
        · simp [pfx, h1]
      rw [List.chain'_cons, ← ih, hpf]

theorem head?_append_ne {α : Type} {a : List α} (b : List α) (h : a ≠ []) :
    (a ++ b).head? = a.head? := by
  cases a with
  | nil => exact absurd rfl h
  | cons c t => rfl

theorem getLast?_append_ne {α : Type} (a : List α) {b : List α} (h : b ≠ []) :
    (a ++ b).getLast? = b.getLast? := by
  rw [← List.head?_reverse, ← List.head?_reverse, List.reverse_append]
  exact head?_append_ne _ (by simpa using h)

theorem head?_joinSep_cons {sep q : Str} (r : List Str) (h : q ≠ []) :
    (joinSep sep (q :: r)).head? = q.head? := by
  cases r with
  | nil => rfl
  | cons a l =>
    rw [show joinSep sep (q :: a :: l) = q ++ (sep ++ joinSep sep (a :: l)) by
      simp [joinSep]]
    exact head?_append_ne _ h

theorem chain_joinSep {R : Char → Char → Prop} {sep : Str}
    (hsep : List.Chain' R sep) (hsepne : sep ≠ []) :
    ∀ ns : List Str, (∀ n ∈ ns, n ≠ [] ∧ List.Chain' R n) →
      (∀ n ∈ ns, ∀ x ∈ n.getLast?, ∀ y ∈ sep.head?, R x y) →
      (∀ n ∈ ns, ∀ x ∈ sep.getLast?, ∀ y ∈ n.head?, R x y) →
      List.Chain' R (joinSep sep ns) := by
  intro ns
  induction ns with
  | nil =>
    intro _ _ _
    simp [joinSep]
  | cons n rest ih =>
    intro h1 h2 h3
    cases rest with
    | nil => simpa [joinSep] using (h1 n (by simp)).2
    | cons q rest2 =>
      rw [show joinSep sep (n :: q :: rest2) = n ++ (sep ++ joinSep sep (q :: rest2)) by
        simp [joinSep]]
      rw [List.chain'_append]
      refine ⟨(h1 n (by simp)).2, ?_, ?_⟩
      · rw [List.chain'_append]
        refine ⟨hsep, ih (fun m hm => h1 m (by simp [hm]))
          (fun m hm => h2 m (by simp [hm])) (fun m hm => h3 m (by simp [hm])), ?_⟩
        intro x hx y hy
        rw [head?_joinSep_cons rest2 (h1 q (by simp)).1] at hy
        exact h3 q (by simp) x hx y hy
      · intro x hx y hy
        rw [head?_append_ne _ hsepne] at hy
        exact h2 n (by simp) x hx y hy

theorem pyStrip_eq_self {s : Str}
    (hh : ∀ c ∈ s.head?, isWS c = false) (hl : ∀ c ∈ s.getLast?, isWS c = false) :
    pyStrip s = s := by
  cases s with
  | nil => rfl
  | cons c t =>
    have hc : isWS c = false := hh c rfl
    have hdw : List.dropWhile isWS (c :: t) = c :: t := by
      simp [List.dropWhile_cons, hc]
    unfold pyStrip
    rw [hdw]
    cases hrev : (c :: t).reverse with
    | nil => simp at hrev
    | cons d r =>
      have hd : isWS d = false := by
        apply hl
        rw [← List.head?_reverse, hrev]
        rfl
      have hdw2 : List.dropWhile isWS (d :: r) = d :: r := by
        simp [List.dropWhile_cons, hd]
      rw [hdw2, ← hrev, List.reverse_reverse]

/-- Full name selected by the `abbr2full` loop for one part, including the
year-gated renaming of NAACL for editions from 2025 on. -/
def resolvedName (y : Int) (p : Str) : Str :=
  (assocGet mapping (if 2025 ≤ y ∧ p = chars "NAACL" then chars "NAACL25" else p)).getD []

theorem buildRet_known (y : Int) :
    ∀ (parts : List Str) (acc : Str), (∀ p ∈ parts, inMapping p = true) →
      buildRet (.int y) parts acc =
        .ok (acc ++ (parts.map (fun p => chars " and " ++ resolvedName y p)).flatten) := by
  intro parts
  induction parts with
  | nil =>
    intro acc _
    simp [buildRet]
  | cons p rest ih =>
    intro acc hall
    simp only [buildRet, pyIntOf]
    have hsome : ∃ full, assocGet mapping
        (if 2025 ≤ y ∧ p = chars "NAACL" then chars "NAACL25" else p) = some full := by
      split
      · exact Option.isSome_iff_exists.1 (by decide)
      · exact Option.isSome_iff_exists.1 (hall p (by simp))
    obtain ⟨full, hfull⟩ := hsome
    rw [hfull]
    dsimp only
    rw [ih _ (fun q hq => hall q (by simp [hq]))]
    have hres : resolvedName y p = full := by
      rw [resolvedName, hfull]
      rfl
    simp [hres, List.flatten_cons, List.append_assoc]

theorem join_map_sep (sep : Str) (f : Str → Str) :
    ∀ parts : List Str, parts ≠ [] →
      (parts.map (fun p => sep ++ f p)).flatten = sep ++ joinSep sep (parts.map f) := by
  intro parts
  induction parts with
  | nil => intro h; exact absurd rfl h
  | cons p rest ih =>
    intro _
    cases rest with
    | nil => simp [joinSep]
    | cons q rest2 =>
      have hih := ih (by simp)
      simp only [List.map_cons, List.flatten_cons] at hih ⊢
      rw [hih]
      simp [joinSep, List.append_assoc]

theorem occurs_eq_false_iff {pat s : Str} : occurs pat s = false ↔ firstOcc pat s = none := by
  unfold occurs
  cases firstOcc pat s <;> simp

/-- Adjacent-pair relation forbidding a doubled space. -/
def ddR : Char → Char → Prop := fun x y => ¬(' ' = x ∧ ' ' = y)

instance (x y : Char) : Decidable (ddR x y) :=
  inferInstanceAs (Decidable (¬(' ' = x ∧ ' ' = y)))

theorem occurs_dd_iff (s : Str) : occurs (chars "  ") s = false ↔ List.Chain' ddR s := by
  have he : chars "  " = ([' ', ' '] : Str) := rfl
  rw [he, occurs_eq_false_iff]
  exact firstOcc_pair_none_iff ' ' ' ' s

theorem chain_of_no_space {s : Str} (h : ∀ c ∈ s, c ≠ ' ') : List.Chain' ddR s := by
  induction s with
  | nil => simp
  | cons a t ih =>
    cases t with
    | nil => simp
    | cons b t2 =>
      rw [List.chain'_cons]
      exact ⟨fun hc => (h a (by simp)) hc.1.symm, ih (fun c hc => h c (by simp [hc]))⟩

theorem assocGet_mem : ∀ {l : List (Str × Str)} {k v : Str},
    assocGet l k = some v → (k, v) ∈ l := by
  intro l
  induction l with
  | nil => intro k v h; cases h
  | cons kv t ih =>
    intro k v h
    simp only [assocGet] at h
    split at h
    · rename_i heq
      cases h
      obtain ⟨a, b⟩ := kv
      have ha : a = k := heq
      subst ha
      exact List.mem_cons_self _ _
    · right
      exact ih h

theorem getLast?_mem {α : Type} : ∀ {l : List α} {x : α}, l.getLast? = some x → x ∈ l := by
  intro l
  induction l with
  | nil => intro x h; cases h
  | cons a t ih =>
    intro x h
    cases t with
    | nil =>
      simp only [List.getLast?_singleton, Option.some.injEq] at h
      simp [h]
    | cons b t2 =>
      rw [List.getLast?_cons_cons] at h
      exact List.mem_cons_of_mem _ (ih h)

theorem dropLast_mem {α : Type} : ∀ {l : List α} {x : α}, x ∈ l.dropLast → x ∈ l := by
  intro l
  induction l with
  | nil => intro x h; cases h
  | cons a t ih =>
    intro x h
    cases t with
    | nil => cases h
    | cons b t2 =>
      rw [show (a :: b :: t2).dropLast = a :: (b :: t2).dropLast from rfl] at h
      cases h with
      | head => simp
      | tail _ h2 => exact List.mem_cons_of_mem _ (ih h2)

theorem joinSep_ne_nil {sep q : Str} (r : List Str) (h : q ≠ []) :
    joinSep sep (q :: r) ≠ [] := by
  intro hc
  have := @head?_joinSep_cons sep q r h
  rw [hc] at this
  cases q with
  | nil => exact h rfl
  | cons c t => simp at this

theorem getLast?_joinSep {sep : Str} (hsep : sep ≠ []) :
    ∀ {ns : List Str} {x : Str}, (∀ n ∈ ns, n ≠ []) → ns.getLast? = some x →
      (joinSep sep ns).getLast? = x.getLast? := by
  intro ns
  induction ns with
  | nil => intro x _ h; cases h
  | cons n rest ih =>
    intro x hne hlast
    cases rest with
    | nil =>
      simp only [List.getLast?_singleton, Option.some.injEq] at hlast
      rw [← hlast]
      rfl
    | cons q rest2 =>
      rw [List.getLast?_cons_cons] at hlast
      rw [show joinSep sep (n :: q :: rest2) = n ++ (sep ++ joinSep sep (q :: rest2)) by
        simp [joinSep]]
      rw [getLast?_append_ne _ (List.append_ne_nil_of_left_ne_nil hsep _)]
      rw [getLast?_append_ne _ (joinSep_ne_nil rest2 (hne q (by simp)))]
      exact ih (fun m hm => hne m (by simp [hm])) hlast

/-- Every key of the abbreviation table is nonempty and contains no hyphen,
no brace, and no whitespace character. -/
theorem mapping_keys_clean :
    mapping.all (fun kv => !kv.1.isEmpty &&
      kv.1.all (fun c => !(c == '-') && !(c == lbrace) && !(c == rbrace) && !(isWS c))) =
      true := by
  decide

/-- Every value of the abbreviation table is nonempty, begins and ends with
a non-whitespace character, and contains no doubled space. -/
theorem mapping_vals_clean :
    mapping.all (fun kv => !kv.2.isEmpty &&
      (kv.2.head?.all fun c => !(isWS c)) && (kv.2.getLast?.all fun c => !(isWS c)) &&
      !(occurs (chars "  ") kv.2)) = true := by
  decide

theorem option_all_ws {o : Option Char} (h : o.all (fun c => !(isWS c)) = true) :
    ∀ c ∈ o, isWS c = false := by
  intro c hc
  cases o with
  | none => cases hc
  | some d =>
    have hd : d = c := by injection hc
    subst hd
    simpa using h

theorem key_clean {p v : Str} (h : assocGet mapping p = some v) :
    ∀ c ∈ p, c ≠ '-' ∧ c ≠ lbrace ∧ c ≠ rbrace ∧ isWS c = false := by
  have hm := assocGet_mem h
  have hall := List.all_eq_true.1 mapping_keys_clean _ hm
  simp only [Bool.and_eq_true, List.all_eq_true, Bool.not_eq_true', beq_eq_false_iff_ne,
    ne_eq] at hall
  intro c hc
  obtain ⟨-, hin⟩ := hall
  obtain ⟨⟨⟨h1, h2⟩, h3⟩, h4⟩ := hin c hc
  exact ⟨h1, h2, h3, h4⟩

theorem val_clean {p v : Str} (h : assocGet mapping p = some v) :
    v ≠ [] ∧ (∀ c ∈ v.head?, isWS c = false) ∧ (∀ c ∈ v.getLast?, isWS c = false) ∧
      occurs (chars "  ") v = false := by
  have hm := assocGet_mem h
  have hall := List.all_eq_true.1 mapping_vals_clean _ hm
  simp only [Bool.and_eq_true, Bool.not_eq_true'] at hall
  obtain ⟨⟨⟨hne, hh⟩, hl⟩, hocc⟩ := hall
  refine ⟨?_, option_all_ws hh, option_all_ws hl, hocc⟩
  intro hv
  subst hv
  simp at hne

theorem resolvedName_some {p : Str} (y : Int) (h : inMapping p = true) :
    ∃ full, assocGet mapping
        (if 2025 ≤ y ∧ p = chars "NAACL" then chars "NAACL25" else p) = some full ∧
      resolvedName y p = full := by
  have hsome : ∃ full, assocGet mapping
      (if 2025 ≤ y ∧ p = chars "NAACL" then chars "NAACL25" else p) = some full := by
    split
    · exact Option.isSome_iff_exists.1 (by decide)
    · exact Option.isSome_iff_exists.1 h
  obtain ⟨full, hfull⟩ := hsome
  refine ⟨full, hfull, ?_⟩
  rw [resolvedName, hfull]
  rfl

/-- Membership in a separator join comes from the separator or a part. -/
theorem mem_joinSep {c : Char} {sep : Str} :
    ∀ {ns : List Str}, c ∈ joinSep sep ns → c ∈ sep ∨ ∃ n ∈ ns, c ∈ n := by
  intro ns
  induction ns with
  | nil => intro h; simp [joinSep] at h
  | cons n rest ih =>
    cases rest with
    | nil =>
      intro h
      right
      exact ⟨n, by simp, h⟩
    | cons q rest2 =>
      intro h
      rw [show joinSep sep (n :: q :: rest2) = n ++ sep ++ joinSep sep (q :: rest2) from by
        simp [joinSep]] at h
      simp only [List.mem_append] at h
      rcases h with (h | h) | h
      · right; exact ⟨n, by simp, h⟩
      · left; exact h
      · rcases ih h with h | ⟨m, hm, hcm⟩
        · left; exact h
        · right; exact ⟨m, by simp [hm], hcm⟩

theorem parts_chars {parts : List Str} (hall : ∀ p ∈ parts, inMapping p = true) :
    ∀ p ∈ parts, ∀ c ∈ p, c ≠ '-' ∧ c ≠ lbrace ∧ c ≠ rbrace ∧ isWS c = false := by
  intro p hp
  obtain ⟨v, hv⟩ := Option.isSome_iff_exists.1 (hall p hp)
  exact key_clean hv

theorem code_chars {parts : List Str} (hall : ∀ p ∈ parts, inMapping p = true) :
    ∀ c ∈ joinSep (chars "-") parts, c ≠ lbrace ∧ c ≠ rbrace ∧ c ≠ ' ' := by
  intro c hc
  rcases mem_joinSep hc with hs | ⟨p, hp, hcp⟩
  · have hcd : c = '-' := by simpa [chars] using hs
    subst hcd
    exact ⟨by decide, by decide, by decide⟩
  · obtain ⟨-, h2, h3, h4⟩ := parts_chars hall p hp c hcp
    refine ⟨h2, h3, ?_⟩
    intro hsp
    subst hsp
    simp [isWS] at h4

theorem resolved_clean {p : Str} (y : Int) (h : inMapping p = true) :
    resolvedName y p ≠ [] ∧ (∀ c ∈ (resolvedName y p).head?, isWS c = false) ∧
      (∀ c ∈ (resolvedName y p).getLast?, isWS c = false) ∧
      occurs (chars "  ") (resolvedName y p) = false := by
  obtain ⟨full, hfull, heq⟩ := resolvedName_some y h
  rw [heq]
  exact val_clean hfull

theorem getLast?_map_str (f : Str → Str) :
    ∀ l : List Str, (l.map f).getLast? = l.getLast?.map f := by
  intro l
  induction l with
  | nil => rfl
  | cons a t ih =>
    cases t with
    | nil => rfl
    | cons b t2 =>
      simp only [List.map_cons, List.getLast?_cons_cons] at ih ⊢
      exact ih

/-- Expected result of `abbr2full` on a fully-known hyphen-joined code: the
resolved full names joined by " and ", then the code in parentheses. -/
def expansion (y : Int) (parts : List Str) : Str :=
  joinSep (chars " and ") (parts.map (resolvedName y)) ++ chars " (" ++
    joinSep (chars "-") parts ++ chars ")"

theorem expansion_clean (parts : List Str) (y : Int)
    (hne : parts ≠ []) (hall : ∀ p ∈ parts, inMapping p = true) :
    occurs (chars "  ") (expansion y parts) = false ∧
      pyStrip (expansion y parts) = expansion y parts := by
  have hnprops : ∀ n ∈ parts.map (resolvedName y), n ≠ [] ∧
      (∀ c ∈ n.head?, isWS c = false) ∧
      (∀ c ∈ n.getLast?, isWS c = false) ∧ occurs (chars "  ") n = false := by
    intro n hn
    obtain ⟨p, hp, rfl⟩ := List.mem_map.1 hn
    exact resolved_clean y (hall p hp)
  obtain ⟨n0, nrest, hns0⟩ : ∃ a l, parts.map (resolvedName y) = a :: l := by
    cases hp : parts.map (resolvedName y) with
    | nil => exact absurd (List.map_eq_nil_iff.1 hp) hne
    | cons a l => exact ⟨a, l, rfl⟩
  have hn0 : n0 ∈ parts.map (resolvedName y) := by rw [hns0]; simp
  have hJne : joinSep (chars " and ") (parts.map (resolvedName y)) ≠ [] := by
    rw [hns0]
    exact joinSep_ne_nil nrest (hnprops n0 hn0).1
  -- chains
  have hchainJ : List.Chain' ddR (joinSep (chars " and ") (parts.map (resolvedName y))) := by
    apply chain_joinSep ((occurs_dd_iff (chars " and ")).1 (by decide)) (by decide)
    · intro n hn
      exact ⟨(hnprops n hn).1, (occurs_dd_iff n).1 (hnprops n hn).2.2.2⟩
    · intro n hn x hx ysp hysp
      have hy : some ' ' = some ysp := hysp
      injection hy with hy
      intro hcontra
      have hxw := (hnprops n hn).2.2.1 x hx
      rw [← hcontra.1] at hxw
      simp [isWS] at hxw
    · intro n hn x hx ysp hysp
      have hx2 : some ' ' = some x := hx
      injection hx2 with hx2
      intro hcontra
      have hyw := (hnprops n hn).2.1 ysp hysp
      rw [← hcontra.2] at hyw
      simp [isWS] at hyw
  have hchaincode : List.Chain' ddR (joinSep (chars "-") parts) :=
    chain_of_no_space (fun c hc => (code_chars hall c hc).2.2)
  have hglJ : ∀ x ∈ (joinSep (chars " and ") (parts.map (resolvedName y))).getLast?,
      isWS x = false := by
    intro x hx
    obtain ⟨pl, hpl⟩ := Option.isSome_iff_exists.1 (List.getLast?_isSome.2 hne)
    have hmapl : (parts.map (resolvedName y)).getLast? = some (resolvedName y pl) := by
      rw [getLast?_map_str, hpl]
      rfl
    have hlast : (joinSep (chars " and ") (parts.map (resolvedName y))).getLast? =
        (resolvedName y pl).getLast? := by
      apply getLast?_joinSep (by decide) (fun m hm => (hnprops m hm).1) hmapl
    rw [hlast] at hx
    exact (resolved_clean y (hall pl (getLast?_mem hpl))).2.2.1 x hx
  have hchainA : List.Chain' ddR
      (joinSep (chars " and ") (parts.map (resolvedName y)) ++ chars " (") := by
    apply hchainJ.append ((occurs_dd_iff (chars " (")).1 (by decide))
    intro x hx ysp hysp
    intro hcontra
    have hxw := hglJ x hx
    rw [← hcontra.1] at hxw
    simp [isWS] at hxw
  have hchainB : List.Chain' ddR
      ((joinSep (chars " and ") (parts.map (resolvedName y)) ++ chars " (") ++
        joinSep (chars "-") parts) := by
    apply hchainA.append hchaincode
    intro x hx ysp hysp
    intro hcontra
    have hgl : (joinSep (chars " and ") (parts.map (resolvedName y)) ++
        chars " (").getLast? = some '(' := by
      rw [getLast?_append_ne _ (show chars " (" ≠ [] by decide)]
      rfl
    rw [hgl] at hx
    have hx2 : some '(' = some x := hx
    injection hx2 with hx2
    exact absurd (hcontra.1.trans hx2.symm) (by decide)
  have hchainFull : List.Chain' ddR (expansion y parts) := by
    show List.Chain' ddR
      (((joinSep (chars " and ") (parts.map (resolvedName y)) ++ chars " (") ++
        joinSep (chars "-") parts) ++ chars ")")
    apply hchainB.append ((occurs_dd_iff (chars ")")).1 (by decide))
    intro x hx ysp hysp
    have hy2 : some ')' = some ysp := hysp
    injection hy2 with hy2
    intro hcontra
    exact absurd (hcontra.2.trans hy2.symm) (by decide)
  refine ⟨(occurs_dd_iff _).2 hchainFull, ?_⟩
  apply pyStrip_eq_self
  · intro c hc
    have hh : (expansion y parts).head? = n0.head? := by
      show (((joinSep (chars " and ") (parts.map (resolvedName y)) ++ chars " (") ++
        joinSep (chars "-") parts) ++ chars ")").head? = n0.head?
      rw [head?_append_ne _ (List.append_ne_nil_of_left_ne_nil
        (List.append_ne_nil_of_left_ne_nil hJne _) _)]
      rw [head?_append_ne _ (List.append_ne_nil_of_left_ne_nil hJne _)]
      rw [head?_append_ne _ hJne]
      rw [hns0]
      exact head?_joinSep_cons nrest (hnprops n0 hn0).1
    rw [hh] at hc
    exact (hnprops n0 hn0).2.1 c hc
  · intro c hc
    have hl : (expansion y parts).getLast? = some ')' := by
      show ((((joinSep (chars " and ") (parts.map (resolvedName y))) ++ chars " (") ++
        joinSep (chars "-") parts) ++ chars ")").getLast? = some ')'
      rw [getLast?_append_ne _ (show chars ")" ≠ [] by decide)]
      rfl
    rw [hl] at hc
    have hc2 : some ')' = some c := hc
    injection hc2 with hc2
    rw [← hc2]
    decide

/-- Claim C2: for every venue code made of hyphen-joined segments that are
all present in the abbreviation table, `abbr2full` succeeds and returns the
full names of the segments (as resolved by the active year policy,
`resolvedName`) joined by the literal separator " and ", followed by the
brace-stripped code in parentheses; the result contains no doubled space and
no leading or trailing whitespace (stripping it is the identity). -/
theorem claim_C2 (parts : List Str) (y : Int)
    (hne : parts ≠ []) (hall : ∀ p ∈ parts, inMapping p = true) :
    abbr2full (joinSep (chars "-") parts) (.int y) = .ok (expansion y parts) ∧
    occurs (chars "  ") (expansion y parts) = false ∧
    pyStrip (expansion y parts) = expansion y parts := by
  obtain ⟨hdd, hstrip⟩ := expansion_clean parts y hne hall
  refine ⟨?_, hdd, hstrip⟩
  have hbs1 : replaceAll [lbrace] [] (joinSep (chars "-") parts) =
      joinSep (chars "-") parts :=
    replaceAll_no_occ _ (firstOcc_none_of_no_head (fun c hc => (code_chars hall c hc).1))
  have hbs2 : replaceAll [rbrace] [] (joinSep (chars "-") parts) =
      joinSep (chars "-") parts :=
    replaceAll_no_occ _ (firstOcc_none_of_no_head (fun c hc => (code_chars hall c hc).2.1))
  have hsplit : pysplit (chars "-") (joinSep (chars "-") parts) = parts := by
    apply pysplit_joinSep (by decide) parts hne
    · intro p hp
      have hpmem := dropLast_mem hp
      have hnohyph : ∀ c ∈ p, c ≠ '-' := fun c hc => (parts_chars hall p hpmem c hc).1
      show firstOcc ('-' :: []) (p ++ ['-']) = some p.length
      rw [firstOcc_append_head ['-'] hnohyph,
        show firstOcc ['-'] ['-'] = some 0 from by decide]
      simp
    · intro p hp
      exact firstOcc_none_of_no_head
        (fun c hc => (parts_chars hall p (getLast?_mem hp) c hc).1)
  simp only [abbr2full]
  rw [hbs1, hbs2, hsplit]
  rw [if_pos (show parts.all (fun p => inMapping p) = true from List.all_eq_true.2 hall)]
  rw [buildRet_known y parts [] hall]
  dsimp only
  rw [List.nil_append]
  rw [join_map_sep (chars " and ") (resolvedName y) parts hne]
  rw [show (5 : Nat) = (chars " and ").length from rfl, List.drop_left]
  show Except.ok (pyStrip (replaceAll (chars "  ") (chars " ") (expansion y parts))) =
    Except.ok (expansion y parts)
  rw [replaceAll_no_occ _ (occurs_eq_false_iff.1 hdd), hstrip]

/-- Witness for claim C2 at the joint code EMNLP-IJCNLP with year 2019. -/
theorem claim_C2_witness :
    abbr2full (joinSep (chars "-") [chars "EMNLP", chars "IJCNLP"]) (.int 2019) =
      .ok (expansion 2019 [chars "EMNLP", chars "IJCNLP"]) ∧
    occurs (chars "  ") (expansion 2019 [chars "EMNLP", chars "IJCNLP"]) = false ∧
    pyStrip (expansion 2019 [chars "EMNLP", chars "IJCNLP"]) =
      expansion 2019 [chars "EMNLP", chars "IJCNLP"] :=
  claim_C2 [chars "EMNLP", chars "IJCNLP"] 2019 (by decide) (by decide)

/-- Counterexample to claim C3 as stated: for the code "X  Y", whose first
(and only) hyphen-segment is not in the table, `abbr2full` returns the input
with the doubled space collapsed, which differs from the trimmed input. -/
theorem claim_C3_counterexample :
    abbr2full (chars "X  Y") (.int 2000) = .ok (chars "X Y") ∧
      chars "X Y" ≠ pyStrip (chars "X  Y") :=
  ⟨by decide, by decide⟩

/-- Claim C3 (amended): `abbr2full` fails, with the unrecognized-abbreviation
error carrying the brace-stripped code, exactly when the brace-stripped code
has its first hyphen-segment in the table but not all segments; when the
first segment is not in the table it instead returns the brace-stripped
input with doubled spaces collapsed in one pass and whitespace trimmed. -/
theorem claim_C3 (abbr0 : Str) (y : Int) :
    (abbr2full abbr0 (.int y) =
        .error (.unrecognized (replaceAll [rbrace] [] (replaceAll [lbrace] [] abbr0))) ↔
      inMapping (pysplit (chars "-")
          (replaceAll [rbrace] [] (replaceAll [lbrace] [] abbr0))).headI = true ∧
        ¬ ((pysplit (chars "-")
          (replaceAll [rbrace] [] (replaceAll [lbrace] [] abbr0))).all
            (fun p => inMapping p) = true)) ∧
    (inMapping (pysplit (chars "-")
        (replaceAll [rbrace] [] (replaceAll [lbrace] [] abbr0))).headI = false →
      abbr2full abbr0 (.int y) = .ok (pyStrip (replaceAll (chars "  ") (chars " ")
        (replaceAll [rbrace] [] (replaceAll [lbrace] [] abbr0))))) := by
  set stripped := replaceAll [rbrace] [] (replaceAll [lbrace] [] abbr0) with hstr
  obtain ⟨p0, rest, hps⟩ : ∃ a l, pysplit (chars "-") stripped = a :: l := by
    cases hq : pysplit (chars "-") stripped with
    | nil => exact absurd hq (pysplit_ne_nil _ _)
    | cons a l => exact ⟨a, l, rfl⟩
  rw [hps]
  simp only [List.headI]
  by_cases hallb : (p0 :: rest).all (fun p => inMapping p) = true
  · have hall := List.all_eq_true.1 hallb
    have hcomp : abbr2full abbr0 (.int y) = .ok (pyStrip (replaceAll (chars "  ")
        (chars " ")
        ((((p0 :: rest).map (fun p => chars " and " ++ resolvedName y p)).flatten).drop 5 ++
          chars " (" ++ stripped ++ chars ")"))) := by
      simp only [abbr2full]
      rw [← hstr, hps, if_pos hallb, buildRet_known y (p0 :: rest) [] hall]
      dsimp only
      rw [List.nil_append]
    constructor
    · rw [hcomp]
      simp [hallb]
    · intro hfirst
      have h0 := hall p0 (by simp)
      rw [hfirst] at h0
      exact (Bool.false_ne_true h0).elim
  · by_cases hm : inMapping p0 = true
    · have hcomp : abbr2full abbr0 (.int y) = .error (.unrecognized stripped) := by
        simp only [abbr2full]
        rw [← hstr, hps, if_neg hallb]
        dsimp only
        rw [if_pos hm]
      constructor
      · rw [hcomp]
        simp [hm, hallb]
      · intro hfirst
        rw [hfirst] at hm
        exact (Bool.false_ne_true hm).elim
    · have hm2 : inMapping p0 = false := by
        cases hq : inMapping p0 with
        | false => rfl
        | true => exact absurd hq hm
      have hcomp : abbr2full abbr0 (.int y) =
          .ok (pyStrip (replaceAll (chars "  ") (chars " ") stripped)) := by
        simp only [abbr2full]
        rw [← hstr, hps, if_neg hallb]
        dsimp only
        rw [if_neg (by rw [hm2]; simp)]
      constructor
      · rw [hcomp]
        simp [hm2]
      · intro _
        exact hcomp

/-- Witness for claim C3 at the code "Foo  Bar", whose first segment is not
in the table. -/
theorem claim_C3_witness :
    inMapping (pysplit (chars "-")
      (replaceAll [rbrace] [] (replaceAll [lbrace] [] (chars "Foo  Bar")))).headI = false ∧
    abbr2full (chars "Foo  Bar") (.int 1999) =
      .ok (pyStrip (replaceAll (chars "  ") (chars " ")
        (replaceAll [rbrace] [] (replaceAll [lbrace] [] (chars "Foo  Bar"))))) :=
  ⟨by decide, (claim_C3 (chars "Foo  Bar") 1999).2 (by decide)⟩

theorem head?_mem {α : Type} {l : List α} {x : α} (h : l.head? = some x) : x ∈ l := by
  cases l with
  | nil => cases h
  | cons a t =>
    injection h with h
    rw [← h]
    simp

theorem natStrAux_digits : ∀ (f n : Nat), ∀ c ∈ natStrAux f n, c.isDigit = true := by
  intro f
  induction f with
  | zero => intro n c hc; cases hc
  | succ f ih =>
    intro n c hc
    simp only [natStrAux] at hc
    split at hc
    · rename_i h
      have hce : c = Char.ofNat (48 + n) := by simpa using hc
      subst hce
      interval_cases n <;> decide
    · simp only [List.mem_append] at hc
      rcases hc with hc | hc
      · exact ih _ c hc
      · have hce : c = Char.ofNat (48 + n % 10) := by simpa using hc
        subst hce
        have hm : n % 10 < 10 := Nat.mod_lt _ (by omega)
        interval_cases hn : n % 10 <;> decide

theorem intStr_no_space (i : Int) : ∀ c ∈ intStr i, c ≠ ' ' := by
  intro c hc
  cases i with
  | ofNat n =>
    have hd := natStrAux_digits (n + 1) n c hc
    intro h
    subst h
    simp at hd
  | negSucc m =>
    simp only [intStr] at hc
    rcases List.mem_cons.1 hc with hce | hc2
    · subst hce; decide
    · have hd := natStrAux_digits (m + 1 + 1) (m + 1) c hc2
      intro h
      subst h
      simp at hd

/-- The synthetic summary entry of `shorten_name_list` contains no
occurrence of the separator " and ". -/
theorem summary_no_occ (n : Int) :
    firstOcc (chars " and ") (intStr n ++ chars " additional authors") = none := by
  rw [show chars " and " = (' ' :: chars "and ") from rfl]
  rw [firstOcc_append_head (chars " additional authors") (intStr_no_space n)]
  rw [show firstOcc (' ' :: chars "and ") (chars " additional authors") = none from by decide]
  rfl

theorem shorten_long {authors : Str} (h : 1024 ≤ authors.length) :
    shorten_name_list authors =
      joinSep (chars " and ")
        ((((pysplit (chars " and ") authors).map pyStrip).take 10 ++
          [intStr ((((pysplit (chars " and ") authors).map pyStrip).length : Int) - 10) ++
            chars " additional authors"])) := by
  unfold shorten_name_list
  rw [if_neg (by omega)]

/-- Counterexample to claim C6 as stated: a single author name of exactly
1024 characters is at the length threshold, yet the shortened result is the
name followed by " and -9 additional authors" and has 2 " and "-separated
components, not 11, and the summary count -9 is not the number of removed
authors. -/
theorem claim_C6_counterexample :
    1024 ≤ (List.replicate 1024 'a' : Str).length ∧
    shorten_name_list (List.replicate 1024 'a') =
      List.replicate 1024 'a' ++ chars " and -9 additional authors" ∧
    (pysplit (chars " and ") (shorten_name_list (List.replicate 1024 'a'))).length = 2 := by
  set s : Str := List.replicate 1024 'a' with hs
  have hlen : s.length = 1024 := by rw [hs]; simp
  have hnosp : ∀ c ∈ s, c ≠ ' ' := by
    intro c hc
    rw [hs] at hc
    rw [List.eq_of_mem_replicate hc]
    decide
  have hocc0 : firstOcc (chars " and ") s = none := by
    rw [show chars " and " = (' ' :: chars "and ") from rfl]
    exact firstOcc_none_of_no_head hnosp
  have hsplit0 : pysplit (chars " and ") s = [s] := pysplit_eq_none hocc0
  have hstrip : pyStrip s = s := by
    apply pyStrip_eq_self
    · intro c hc
      have hcm : c ∈ s := head?_mem hc
      rw [hs] at hcm
      rw [List.eq_of_mem_replicate hcm]
      decide
    · intro c hc
      have hcm : c ∈ s := getLast?_mem hc
      rw [hs] at hcm
      rw [List.eq_of_mem_replicate hcm]
      decide
  have hsh : shorten_name_list s = joinSep (chars " and ")
      ([s] ++ [intStr (-9) ++ chars " additional authors"]) := by
    rw [shorten_long (by omega), hsplit0]
    simp only [List.map_cons, List.map_nil, hstrip, List.take_cons, List.take_nil,
      List.length_cons, List.length_nil]
    norm_num
  have hsplit2 : pysplit (chars " and ")
      (joinSep (chars " and ") ([s] ++ [intStr (-9) ++ chars " additional authors"])) =
      [s] ++ [intStr (-9) ++ chars " additional authors"] := by
    apply pysplit_joinSep (by decide) _ (by simp)
    · intro p hp
      rw [List.dropLast_concat] at hp
      have hpe : p = s := by simpa using hp
      subst hpe
      rw [show chars " and " = (' ' :: chars "and ") from rfl]
      rw [firstOcc_append_head _ hnosp]
      rw [show firstOcc (' ' :: chars "and ") (' ' :: chars "and ") = some 0 from by decide]
      simp [hlen]
    · intro p hp
      rw [getLast?_append_ne _ (by simp)] at hp
      have hpe : intStr (-9) ++ chars " additional authors" = p := by
        injection hp
      rw [← hpe]
      exact summary_no_occ (-9)
  refine ⟨by omega, ?_, ?_⟩
  · rw [hsh]
    rw [show joinSep (chars " and ") ([s] ++ [intStr (-9) ++ chars " additional authors"]) =
      s ++ (chars " and " ++ (intStr (-9) ++ chars " additional authors")) from by
        simp [joinSep]]
    rw [show chars " and " ++ (intStr (-9) ++ chars " additional authors") =
      chars " and -9 additional authors" from by decide]
  · rw [hsh, hsplit2]
    simp

/-- Claim C6 (amended): `shorten_name_list` is the identity below 1024
characters; for a field of at least 1024 characters that splits into at
least 10 authors, provided no kept trimmed author recreates a separator
occurrence when rejoined (its first " and " occurrence when followed by the
separator is exactly at its end), the result splits into exactly 11
components: the first 10 trimmed authors followed by the summary entry whose
count is the number of authors minus 10, i.e. the number removed. -/
theorem claim_C6 (authors : Str) :
    (authors.length < 1024 → shorten_name_list authors = authors) ∧
    (1024 ≤ authors.length →
      10 ≤ ((pysplit (chars " and ") authors).map pyStrip).length →
      (∀ p ∈ (((pysplit (chars " and ") authors).map pyStrip).take 10),
        firstOcc (chars " and ") (p ++ chars " and ") = some p.length) →
      pysplit (chars " and ") (shorten_name_list authors) =
        ((pysplit (chars " and ") authors).map pyStrip).take 10 ++
          [intStr ((((pysplit (chars " and ") authors).map pyStrip).length : Int) - 10) ++
            chars " additional authors"] ∧
      (pysplit (chars " and ") (shorten_name_list authors)).length = 11) := by
  constructor
  · intro hlt
    unfold shorten_name_list
    rw [if_pos hlt]
  intro hlen hcount hok
  have hsh := shorten_long hlen
  have hsplitres : pysplit (chars " and ") (shorten_name_list authors) =
      ((pysplit (chars " and ") authors).map pyStrip).take 10 ++
        [intStr ((((pysplit (chars " and ") authors).map pyStrip).length : Int) - 10) ++
          chars " additional authors"] := by
    rw [hsh]
    apply pysplit_joinSep (by decide) _ (by simp)
    · intro p hp
      rw [List.dropLast_concat] at hp
      exact hok p hp
    · intro p hp
      rw [getLast?_append_ne _ (by simp)] at hp
      have hpe : intStr ((((pysplit (chars " and ") authors).map pyStrip).length : Int) - 10) ++
          chars " additional authors" = p := by
        injection hp
      rw [← hpe]
      exact summary_no_occ _
  refine ⟨hsplitres, ?_⟩
  rw [hsplitres]
  simp only [List.length_append, List.length_take, List.length_cons, List.length_nil]
  omega

/-- Witness for claim C6: the identity below the threshold on a short field,
and the 11-component case on a field of 12 authors of 95 characters each. -/
theorem claim_C6_witness :
    shorten_name_list (chars "Smith, John") = chars "Smith, John" ∧
    1024 ≤ (joinSep (chars " and ") (List.replicate 12 (List.replicate 95 'a'))).length ∧
    (pysplit (chars " and ") (shorten_name_list
      (joinSep (chars " and ") (List.replicate 12 (List.replicate 95 'a'))))).length = 11 := by
  have hnosp : ∀ c ∈ (List.replicate 95 'a' : Str), c ≠ ' ' := by
    intro c hc
    rw [List.eq_of_mem_replicate hc]
    decide
  have hocc95 : firstOcc (chars " and ") (List.replicate 95 'a') = none := by
    rw [show chars " and " = (' ' :: chars "and ") from rfl]
    exact firstOcc_none_of_no_head hnosp
  have hstrip95 : pyStrip (List.replicate 95 'a') = List.replicate 95 'a' := by
    apply pyStrip_eq_self
    · intro c hc
      rw [List.eq_of_mem_replicate (head?_mem hc)]
      decide
    · intro c hc
      rw [List.eq_of_mem_replicate (getLast?_mem hc)]
      decide
  have hbound : firstOcc (chars " and ")
      (List.replicate 95 'a' ++ chars " and ") = some (List.replicate 95 'a' : Str).length := by
    rw [show chars " and " = (' ' :: chars "and ") from rfl]
    rw [firstOcc_append_head _ hnosp]
    rw [show firstOcc (' ' :: chars "and ") (' ' :: chars "and ") = some 0 from by decide]
    simp
  have hsplitw : pysplit (chars " and ")
      (joinSep (chars " and ") (List.replicate 12 (List.replicate 95 'a'))) =
      List.replicate 12 (List.replicate 95 'a') := by
    apply pysplit_joinSep (by decide) _ (by simp)
    · intro p hp
      have hpm : p ∈ List.replicate 12 (List.replicate 95 'a') := dropLast_mem hp
      rw [List.eq_of_mem_replicate hpm]
      exact hbound
    · intro p hp
      have hpm : p ∈ List.replicate 12 (List.replicate 95 'a') := getLast?_mem hp
      rw [List.eq_of_mem_replicate hpm]
      exact hocc95
  have hlenw : 1024 ≤ (joinSep (chars " and ")
      (List.replicate 12 (List.replicate 95 'a'))).length := by
    rw [show (List.replicate 12 (List.replicate 95 'a') : List Str) =
      [List.replicate 95 'a', List.replicate 95 'a', List.replicate 95 'a',
       List.replicate 95 'a', List.replicate 95 'a', List.replicate 95 'a',
       List.replicate 95 'a', List.replicate 95 'a', List.replicate 95 'a',
       List.replicate 95 'a', List.replicate 95 'a', List.replicate 95 'a'] from rfl]
    simp only [joinSep]
    simp only [List.length_append, List.length_replicate,
      show (chars " and ").length = 5 from rfl]
    omega
  have hcount : 10 ≤ ((pysplit (chars " and ")
      (joinSep (chars " and ") (List.replicate 12 (List.replicate 95 'a')))).map
        pyStrip).length := by
    rw [hsplitw]
    simp
  have hok : ∀ p ∈ (((pysplit (chars " and ")
      (joinSep (chars " and ") (List.replicate 12 (List.replicate 95 'a')))).map
        pyStrip).take 10),
      firstOcc (chars " and ") (p ++ chars " and ") = some p.length := by
    intro p hp
    rw [hsplitw, List.map_replicate, hstrip95, List.take_replicate] at hp
    rw [List.eq_of_mem_replicate hp]
    exact hbound
  exact ⟨(claim_C6 (chars "Smith, John")).1 (by decide), hlenw,
    ((claim_C6 _).2 hlenw hcount hok).2⟩

/-- Claim C5: at the input below, which contains two matches of the
name-prefix pattern with identical matched text, the first replacement (an
exact-substring replace of all occurrences) already rewrites both
occurrences, so on the second iteration the found-verbatim assertion
`name in authors` fails and `fix_name` raises AssertionError instead of
never failing. -/
theorem claim_C5 :
    fix_name (chars "family=Berg, given=Anna, prefix=van, useprefix=true and family=Berg, given=Anna, prefix=van, useprefix=true") =
      .error .assertionError := by
  decide

/-- Counterexample to claim C9 as stated: on the input below `fix_name`
succeeds, but its output contains a fresh match of the pattern (the
replacement text "true Berg, Anna" completes a `useprefix=` left in the
untouched text), so applying it twice differs from applying it once. -/
theorem claim_C9_counterexample :
    fix_name (chars "family=A, given=B, prefix=C, useprefix=family=Berg, given=Anna, prefix=true, useprefix=true") =
      .ok (chars "family=A, given=B, prefix=C, useprefix=true Berg, Anna") ∧
    (fix_name (chars "family=A, given=B, prefix=C, useprefix=family=Berg, given=Anna, prefix=true, useprefix=true")).bind
        fix_name ≠
      fix_name (chars "family=A, given=B, prefix=C, useprefix=family=Berg, given=Anna, prefix=true, useprefix=true") :=
  ⟨by decide, by decide⟩

/-- Claim C9 (amended): applying repair twice equals applying it once for
every input whose repaired result contains no further match of the prefix
pattern; in particular repair is the identity on match-free strings. -/
theorem claim_C9 (s t : Str) (h1 : fix_name s = .ok t) (h2 : finditer t = []) :
    (fix_name s).bind fix_name = fix_name s ∧ fix_name t = .ok t := by
  have hfix : fix_name t = .ok t := by
    unfold fix_name
    rw [h2]
    rfl
  constructor
  · rw [h1]
    exact hfix
  · exact hfix

/-- Witness for claim C9 at a name without prefix artifacts. -/
theorem claim_C9_witness :
    (fix_name (chars "Smith, John")).bind fix_name = fix_name (chars "Smith, John") ∧
    fix_name (chars "Smith, John") = .ok (chars "Smith, John") :=
  claim_C9 (chars "Smith, John") (chars "Smith, John") (by decide) (by decide)

/-- Claim C8: the batch driver is total, and for every input sequence it
returns exactly the successfully transformed nonempty results in input
order together with exactly the keys of the records whose transformation
raised an exception, in input order; a failing record never aborts the
batch. -/
theorem claim_C8 (entries : List PEntry) :
    raw2allProcess entries =
      (entries.filterMap (fun e =>
         match process_entry e with
         | .ok (some p) => some p
         | _ => none),
       entries.filterMap (fun e =>
         match process_entry e with
         | .error _ => some e.key
         | _ => none)) := by
  suffices h : ∀ (es : List PEntry) (acc1 : List PEntry) (acc2 : List Str),
      es.foldl (fun acc e =>
        match process_entry e with
        | .ok (some p) => (acc.1 ++ [p], acc.2)
        | .ok none => acc
        | .error _ => (acc.1, acc.2 ++ [e.key])) (acc1, acc2) =
      (acc1 ++ es.filterMap (fun e => match process_entry e with
         | .ok (some p) => some p
         | _ => none),
       acc2 ++ es.filterMap (fun e => match process_entry e with
         | .error _ => some e.key
         | _ => none)) by
    have hh := h entries [] []
    simpa [raw2allProcess] using hh
  intro es
  induction es with
  | nil =>
    intro acc1 acc2
    simp
  | cons e rest ih =>
    intro acc1 acc2
    rw [List.foldl_cons, List.filterMap_cons, List.filterMap_cons]
    cases hpe : process_entry e with
    | ok o =>
      cases o with
      | some p =>
        dsimp only
        rw [ih]
        simp [List.append_assoc]
      | none =>
        dsimp only
        rw [ih]
    | error err =>
      dsimp only
      rw [ih]
      simp [List.append_assoc]

/-- Claim C10: a record that passes the author and nobib filters but has
neither a date nor a year field makes `process_entry` raise (the KeyError of
`fields['year']` on line 138), and the batch driver surfaces its key in the
errored list instead of silently discarding it. -/
theorem claim_C10 (e : PEntry)
    (hauthor : ∃ a, getVal e.fields (chars "author") = some a)
    (hnobib : ∀ kw, getVal e.fields (chars "keywords") = some kw →
      occurs (chars "nobib") kw = false)
    (hdate : getVal e.fields (chars "date") = none)
    (hyear : getVal e.fields (chars "year") = none) :
    process_entry e = .error .keyError ∧ raw2allProcess [e] = ([], [e.key]) := by
  obtain ⟨a, ha⟩ := hauthor
  have hnb : (match getVal e.fields (chars "keywords") with
      | some kw => occurs (chars "nobib") kw
      | none => false) = false := by
    cases hk : getVal e.fields (chars "keywords") with
    | none => rfl
    | some kw => exact hnobib kw hk
  have hmain : process_entry e = .error .keyError := by
    simp [process_entry, ha, hnb, hdate, hyear, fieldEqEmptyStr]
  exact ⟨hmain, by simp [raw2allProcess, hmain]⟩

/-- Witness for claim C10 at a minimal record with only an author field. -/
theorem claim_C10_witness :
    process_entry (⟨chars "misc", chars "k", [(chars "author", chars "A")]⟩ : PEntry) =
      .error .keyError ∧
    raw2allProcess [(⟨chars "misc", chars "k", [(chars "author", chars "A")]⟩ : PEntry)] =
      ([], [chars "k"]) :=
  claim_C10 _ ⟨chars "A", by decide⟩
    (fun kw h => Option.noConfusion (show (none : Option Str) = some kw from h))
    (by decide) (by decide)

/-- Claim C1: on the end-to-end example record of the spec, `process_entry`
raises TypeError instead of emitting the expected CleanRecord: line 138
stores the whole year Field object in `new['year']`, and `abbr2full` then
applies `int()` to that Field object while expanding the booktitle "ACL",
which raises.  The batch driver therefore reports the key as errored and
emits nothing. -/
theorem claim_C1 :
    process_entry c1rec = .error .typeError ∧
    raw2allProcess [c1rec] = ([], [chars "smith2020"]) :=
  ⟨by decide, by decide⟩

/-- Claim C4: a record with a present but empty author field is not
filtered: the test `fields['author'] == ''` on line 129 compares a Field
object with a str and is always false, so `process_entry` emits a
CleanRecord with an empty author, contrary to the claim.  (The
absent-author and nobib filters themselves do hold.) -/
theorem claim_C4 :
    process_entry (⟨chars "misc", chars "k",
      [(chars "author", chars ""), (chars "year", chars "2020")]⟩ : PEntry) =
      .ok (some ⟨chars "misc", chars "k",
        [(chars "year", chars "2020"), (chars "author", chars "")]⟩) := by
  decide

/-- Claim C7: the arXiv fallback never fires because line 147 compares
`fields.get('eprinttype','')` (a Field object when present) with the str
'arxiv', which is always false: a record with eprinttype arxiv and a
well-formed eprint but no doi and no url is emitted without a url field,
contrary to the claim; the url branch itself rewrites http:// to https:// as
described. -/
theorem claim_C7 :
    process_entry (⟨chars "misc", chars "k",
      [(chars "author", chars "A B"), (chars "date", chars "2021-01-01"),
       (chars "eprinttype", chars "arxiv"), (chars "eprint", chars "1234.5678")]⟩ : PEntry) =
      .ok (some ⟨chars "misc", chars "k",
        [(chars "year", chars "2021"), (chars "author", chars "A B")]⟩) ∧
    process_entry (⟨chars "misc", chars "k2",
      [(chars "author", chars "A B"), (chars "date", chars "2021-01-01"),
       (chars "url", chars "http://example.com/paper")]⟩ : PEntry) =
      .ok (some ⟨chars "misc", chars "k2",
        [(chars "year", chars "2021"), (chars "url", chars "https://example.com/paper"),
         (chars "author", chars "A B")]⟩) :=
  ⟨by decide, by decide⟩

end Raw2All
